import Mathlib

/-!
Shallow embedding of `wagtail_meilisearch/backend.py` (wagtail-meilisearch).

The embedding follows the source file top to bottom:
* `_get_field_mapping`, the suffix constants;
* `MeiliSearchModelIndex.prepare_value`, `_get_document_fields`, `_create_document`;
* `get_descendant_models`;
* `MeiliSearchResults._do_search` / `_do_count` (merge, score, sort, materialize,
  distinct, slice);
* `MeiliSearchBackend._search` and `MeiliSearchBackend.autocomplete`.

Python dicts are modelled as insertion-ordered association lists, Python's stable
`sorted` as insertion sort over the same total preorder (a stable sort is uniquely
determined by the preorder, so any stable sort is a faithful model), Django
querysets as lists of rows in the datastore's default order, and the meilisearch
hit as the dict shown in the `_do_search` docstring: `id` plus `_matchesInfo`,
a mapping from field name to match spans.
-/

namespace WagtailMeili

/-- Python-like values that can appear as a field value on a content object.
`vmanager` is a related manager / queryset (a list of related objects, each a
list of named attributes), `vmodel` a single related model instance. -/
inductive PyVal where
  | vnone
  | vint (n : Int)
  | vstr (s : String)
  | vlist (xs : List PyVal)
  | vdict (xs : List (String × PyVal))
  | vmanager (objs : List (List (String × PyVal)))
  | vmodel (attrs : List (String × PyVal))

/-- Python truthiness test (`if not value`) on the modelled values. -/
def isFalsy : PyVal → Bool
  | .vnone => true
  | .vint n => n == 0
  | .vstr s => s == ""
  | .vlist xs => xs.isEmpty
  | .vdict xs => xs.isEmpty
  | .vmanager objs => objs.isEmpty
  | .vmodel _ => false

/-- `django.utils.encoding.force_text` on the scalar values we model.
The manager/model cases are unreachable in the modelled code paths. -/
def force_text : PyVal → String
  | .vint n => toString n
  | .vstr s => s
  | .vnone => "None"
  | _ => ""

mutual

/-- `MeiliSearchModelIndex.prepare_value` (backend.py lines 80-92). -/
def prepare_value (value : PyVal) : String :=
  if isFalsy value then ""
  else
    match value with
    | .vstr s => s
    | .vlist xs => String.intercalate ", " (prepare_list xs)
    | .vdict xs => String.intercalate ", " (prepare_dict_values xs)
    | v => force_text v

/-- `prepare_value` mapped over the items of a list. -/
def prepare_list : List PyVal → List String
  | [] => []
  | v :: vs => prepare_value v :: prepare_list vs

/-- `prepare_value` mapped over the values of a dict. -/
def prepare_dict_values : List (String × PyVal) → List String
  | [] => []
  | (_, v) :: vs => prepare_value v :: prepare_dict_values vs

end

/-- Field descriptors from `wagtail.search.index`: `SearchField`, `FilterField`,
`AutocompleteField` and `RelatedFields` (with its nested descriptors). -/
inductive WagtailField where
  | search (field_name : String)
  | filter (field_name : String)
  | autocomplete (field_name : String)
  | related (field_name : String) (fields : List WagtailField)

/-- The `field_name` attribute shared by every descriptor kind. -/
def WagtailField.field_name : WagtailField → String
  | .search n => n
  | .filter n => n
  | .autocomplete n => n
  | .related n _ => n

def AUTOCOMPLETE_SUFFIX : String := "_ngrams"

def FILTER_SUFFIX : String := "_filter"

/-- `_get_field_mapping` (backend.py lines 21-26): `FilterField` gets the
filter suffix, `AutocompleteField` the ngrams suffix, anything else its
plain field name. -/
def _get_field_mapping (field : WagtailField) : String :=
  match field with
  | .filter n => n ++ FILTER_SUFFIX
  | .autocomplete n => n ++ AUTOCOMPLETE_SUFFIX
  | f => f.field_name

/-- A content object: its primary key and its named attribute values
(`field.get_value(item)` reads `item.attrs`). -/
structure Item where
  id : Int
  attrs : List (String × PyVal)

/-- Attribute access; a missing attribute reads as Python `None`. -/
def getAttr (attrs : List (String × PyVal)) (n : String) : PyVal :=
  match attrs.lookup n with
  | some v => v
  | none => .vnone

/-- `MeiliSearchModelIndex._get_document_fields` (backend.py lines 94-109).
Search/filter/autocomplete fields yield one mapped-key/prepared-value pair.
A related field whose value is a manager/queryset yields, per declared
sub-field, the column projection of that sub-field joined by `prepare_value`;
a related field whose value is a single model instance yields one pair per
sub-field; any other value yields nothing. -/
def _get_document_fields (item : Item) : List WagtailField → List (String × String)
  | [] => []
  | field :: rest =>
    (match field with
     | .search _ =>
       [(_get_field_mapping field, prepare_value (getAttr item.attrs field.field_name))]
     | .filter _ =>
       [(_get_field_mapping field, prepare_value (getAttr item.attrs field.field_name))]
     | .autocomplete _ =>
       [(_get_field_mapping field, prepare_value (getAttr item.attrs field.field_name))]
     | .related field_name sub_fields =>
       match getAttr item.attrs field_name with
       | .vmanager objs =>
         sub_fields.map (fun sub_field =>
           (field_name ++ "__" ++ _get_field_mapping sub_field,
            prepare_value (.vlist (objs.map (fun o => getAttr o sub_field.field_name)))))
       | .vmodel attrs =>
         sub_fields.map (fun sub_field =>
           (field_name ++ "__" ++ _get_field_mapping sub_field,
            prepare_value (getAttr attrs sub_field.field_name)))
       | _ => []) ++ _get_document_fields item rest

/-- A Python dict as an insertion-ordered association list (no duplicate keys
by construction): setting an existing key keeps its position and replaces its
value, a new key is appended at the end. -/
def dictInsert : List (String × PyVal) → String → PyVal → List (String × PyVal)
  | [], k, v => [(k, v)]
  | p :: rest, k, v => if p.1 = k then (k, v) :: rest else p :: dictInsert rest k v

/-- `d.update(other)`: insert the pairs of `other` into `d` in order. -/
def dictUpdate (d : List (String × PyVal)) (other : List (String × PyVal)) :
    List (String × PyVal) :=
  other.foldl (fun acc p => dictInsert acc p.1 p.2) d

/-- Dict lookup (first occurrence of the key). -/
def dictGet : List (String × PyVal) → String → Option PyVal
  | [], _ => none
  | p :: rest, k => if p.1 = k then some p.2 else dictGet rest k

/-- `MeiliSearchModelIndex._create_document` (backend.py lines 115-120):
build `dict(self._get_document_fields(model, item))`, then
`doc_fields.update(id=item.id)`, then copy into a fresh dict. -/
def _create_document (item : Item) (fields : List WagtailField) :
    List (String × PyVal) :=
  let doc_fields := dictUpdate []
    ((_get_document_fields item fields).map (fun p => (p.1, PyVal.vstr p.2)))
  let doc_fields_with_id := dictInsert doc_fields "id" (.vint item.id)
  let document := dictUpdate [] doc_fields_with_id
  document

/-- The process-wide model registry: `django.apps.apps.get_models()`, the
`issubclass` relation between models, and wagtail's `class_is_indexed`
predicate (is the model registered for search). Models are identified by
natural numbers. -/
structure AppRegistry where
  all_models : List Nat
  issubclass : Nat → Nat → Bool
  class_is_indexed : Nat → Bool

/-- `get_descendant_models` (backend.py lines 176-186): every model of the
registry that is a subclass of `model`. The `lru_cache` decorator memoizes
the call per model; the function itself is pure, which the embedding reflects. -/
def get_descendant_models (reg : AppRegistry) (model : Nat) : List Nat :=
  reg.all_models.filter (fun other_model => reg.issubclass other_model model)

/-- A raw meilisearch hit, per the docstring in `_do_search`: the document
primary key and `_matchesInfo`, a mapping from field name to a list of match
spans, each a pair (start, length). -/
structure Hit where
  id : Int
  matchesInfo : List (String × List (Nat × Nat))
deriving DecidableEq, Repr

/-- `str()` of one span dict, e.g. `\x7b'start': 0, 'length': 6\x7d`. -/
def strSpan (p : Nat × Nat) : String :=
  "\x7b\x27start\x27: " ++ toString p.1 ++ ", \x27length\x27: " ++ toString p.2 ++ "\x7d"

/-- `str()` of a list of span dicts. -/
def strSpans (l : List (Nat × Nat)) : String :=
  "[" ++ String.intercalate ", " (l.map strSpan) ++ "]"

/-- `str(item['_matchesInfo'])`: the textual rendering whose length is the
score in `_do_search`. -/
def strMatchesInfo (mi : List (String × List (Nat × Nat))) : String :=
  "\x7b" ++
    String.intercalate ", "
      (mi.map (fun f => "\x27" ++ f.1 ++ "\x27: " ++ strSpans f.2)) ++
  "\x7d"

/-- A hit after the scoring loop added `item['score']`. -/
structure ScoredHit where
  id : Int
  matchesInfo : List (String × List (Nat × Nat))
  score : Nat
deriving DecidableEq, Repr

/-- One step of the merge loop in `_do_search` (lines 203-205):
`if item not in results: results.append(item)` — Python `in` compares whole
dicts, so a hit is skipped only when an equal hit is already present. -/
def appendUnique {α : Type} [DecidableEq α] (acc : List α) (x : α) : List α :=
  if x ∈ acc then acc else acc ++ [x]

/-- The fan-out/merge loop of `_do_search` (lines 200-205): for each
descendant model query its index and fold every returned hit into the
working list with `appendUnique`. -/
def mergeHits (models : List Nat) (hitsOf : Nat → List Hit) : List Hit :=
  models.foldl (fun results m => (hitsOf m).foldl appendUnique results) []

/-- The scoring loop (lines 242-243): `item['score'] = len(str(item['_matchesInfo']))`. -/
def scoreHits (results : List Hit) : List ScoredHit :=
  results.map (fun item => ⟨item.id, item.matchesInfo, (strMatchesInfo item.matchesInfo).length⟩)

/-- The comparison behind `sorted(results, key=itemgetter('score'), reverse=True)`:
`a` may come before `b` exactly when `a.score ≥ b.score`. -/
def scoreGE (a b : ScoredHit) : Prop := b.score ≤ a.score

instance : DecidableRel scoreGE := fun a b => inferInstanceAs (Decidable (b.score ≤ a.score))

instance : IsTotal ScoredHit scoreGE := ⟨fun a b => Nat.le_total b.score a.score⟩

instance : IsTrans ScoredHit scoreGE := ⟨fun _ _ _ hab hbc => Nat.le_trans hbc hab⟩

/-- `sorted(results, key=itemgetter('score'), reverse=True)` (line 245).
Python's sort is stable; a stable sort is uniquely determined by the total
preorder, so insertion sort over `scoreGE` models it exactly. -/
def sortByScore (results : List ScoredHit) : List ScoredHit :=
  results.insertionSort scoreGE

/-- Index of the first occurrence of `x`, `l.length` when absent. -/
def firstIdx (x : Int) : List Int → Nat
  | [] => 0
  | y :: l => if y = x then 0 else firstIdx x l + 1

/-- A row of the canonical datastore (`qc.queryset`); `pk` is the primary key,
`data` stands for the remaining columns. -/
structure DbRec where
  pk : Int
  data : Nat
deriving DecidableEq, Repr

/-- The ordering imposed by `Case(*[When(pk=pk, then=pos) for pos, pk in
enumerate(sorted_ids)])` (line 252): a row's sort key is the position of the
first `When` clause matching its primary key. -/
def preservedLE (ids : List Int) (a b : DbRec) : Prop :=
  firstIdx a.pk ids ≤ firstIdx b.pk ids

instance (ids : List Int) : DecidableRel (preservedLE ids) := fun a b =>
  inferInstanceAs (Decidable (firstIdx a.pk ids ≤ firstIdx b.pk ids))

instance (ids : List Int) : IsTotal DbRec (preservedLE ids) :=
  ⟨fun a b => Nat.le_total (firstIdx a.pk ids) (firstIdx b.pk ids)⟩

instance (ids : List Int) : IsTrans DbRec (preservedLE ids) :=
  ⟨fun _ _ _ hab hbc => Nat.le_trans hab hbc⟩

/-- `qc.queryset.filter(pk__in=sorted_ids).order_by(preserved_order)` (line 253). -/
def orderPreserved (ids : List Int) (rows : List DbRec) : List DbRec :=
  rows.insertionSort (preservedLE ids)

/-- Django `.distinct()` on an already-ordered queryset: duplicate rows
collapse to their first occurrence. -/
def distinctRows (rows : List DbRec) : List DbRec :=
  rows.foldl appendUnique []

/-- Python slicing `l[start:stop]` with an optional stop. -/
def pySlice {α : Type} (l : List α) (start : Nat) (stop : Option Nat) : List α :=
  match stop with
  | none => l.drop start
  | some n => (l.take n).drop start

/-- Everything `MeiliSearchResults._do_search` reads: the model registry, the
model of the query compiler's queryset, the hits each model's index returns
for the query terms, the queryset rows in datastore default order, the
`order_by_relevance` flag and the result window. -/
structure SearchEnv where
  registry : AppRegistry
  model : Nat
  hitsOf : Nat → List Hit
  db : List DbRec
  order_by_relevance : Bool
  start : Nat
  stop : Option Nat

/-- The merged working list of `_do_search` (lines 200-205). -/
def mergedHits (env : SearchEnv) : List Hit :=
  mergeHits (get_descendant_models env.registry env.model) env.hitsOf

/-- `sorted_results` (line 245): the merged hits, scored, sorted by score
descending. -/
def sortedResults (env : SearchEnv) : List ScoredHit :=
  sortByScore (scoreHits (mergedHits env))

/-- `sorted_ids` (line 246). -/
def sortedIds (env : SearchEnv) : List Int :=
  (sortedResults env).map ScoredHit.id

/-- Lines 250-256 before the slice: filter the queryset to the hit ids, order
by preserved score order when `order_by_relevance` is set, then `.distinct()`. -/
def materialized (env : SearchEnv) : List DbRec :=
  let ids := sortedIds env
  let base := env.db.filter (fun r => decide (r.pk ∈ ids))
  distinctRows (if env.order_by_relevance then orderPreserved ids base else base)

/-- `MeiliSearchResults._do_search` (backend.py lines 192-258). -/
def _do_search (env : SearchEnv) : List DbRec :=
  pySlice (materialized env) env.start env.stop

/-- `MeiliSearchResults._do_count` (backend.py lines 260-261):
`len(self._do_search())`. -/
def _do_count (env : SearchEnv) : Nat :=
  (_do_search env).length

/-- The outcome of `MeiliSearchBackend._search`: either the explicitly-empty
`EmptySearchResults` (which holds no query and triggers no index or datastore
access) or a lazy `MeiliSearchResults` carrying the compiled query. -/
inductive SearchOutcome where
  | empty
  | results (query : String) (model : Nat) (order_by_relevance : Bool)
deriving DecidableEq, Repr

/-- The backend state `_search` consults: the registry with wagtail's
`class_is_indexed`. -/
structure Backend where
  registry : AppRegistry

/-- `MeiliSearchBackend._search` (backend.py lines 316-341): an unregistered
model or an empty query string short-circuits to `EmptySearchResults`;
otherwise a results object over the compiled query is returned. -/
def _search (b : Backend) (query : String) (model : Nat)
    (order_by_relevance : Bool) : SearchOutcome :=
  if ¬ b.registry.class_is_indexed model then .empty
  else if query = "" then .empty
  else .results query model order_by_relevance

/-- Modelled from the spec: `wagtail.search.backends.base.BaseSearchBackend`
(outside this repository) defaults `autocomplete_query_compiler_class` to
`None`, and `MeiliSearchBackend` (backend.py lines 264-268) never overrides
it — the spec requires autocomplete to fail with an unsupported-operation
signal when the backend was not configured with autocomplete support. -/
def autocomplete_query_compiler_class : Option Unit := none

/-- The outcome of `MeiliSearchBackend.autocomplete`. -/
inductive AutocompleteOutcome where
  | notImplementedError (msg : String)
  | goesOn (r : SearchOutcome)
deriving DecidableEq, Repr

/-- `MeiliSearchBackend.autocomplete` (backend.py lines 356-367). -/
def autocomplete (b : Backend) (query : String) (model : Nat)
    (order_by_relevance : Bool) : AutocompleteOutcome :=
  match autocomplete_query_compiler_class with
  | none => .notImplementedError "This search backend does not support the autocomplete API"
  | some _ => .goesOn (_search b query model order_by_relevance)

end WagtailMeili

namespace WagtailMeili

/-! ### Helper lemmas about `appendUnique` folds -/

theorem nodup_foldl_appendUnique {α : Type} [DecidableEq α] (xs : List α) :
    ∀ acc : List α, acc.Nodup → (xs.foldl appendUnique acc).Nodup := by
  induction xs with
  | nil => intro acc h; exact h
  | cons x xs ih =>
    intro acc h
    simp only [List.foldl_cons]
    apply ih
    unfold appendUnique
    by_cases hx : x ∈ acc
    · simpa [hx] using h
    · simp only [hx, if_false]
      refine List.Nodup.append h (List.nodup_singleton x) ?_
      intro a ha hax
      rw [List.mem_singleton] at hax
      exact hx (hax ▸ ha)

theorem mem_foldl_appendUnique {α : Type} [DecidableEq α] (xs : List α) :
    ∀ (acc : List α) (y : α), y ∈ xs.foldl appendUnique acc ↔ y ∈ acc ∨ y ∈ xs := by
  induction xs with
  | nil => simp
  | cons x xs ih =>
    intro acc y
    simp only [List.foldl_cons]
    rw [ih]
    unfold appendUnique
    by_cases hx : x ∈ acc
    · simp only [hx, if_true, List.mem_cons]
      constructor
      · rintro (h | h)
        · exact Or.inl h
        · exact Or.inr (Or.inr h)
      · rintro (h | h | h)
        · exact Or.inl h
        · exact Or.inl (h ▸ hx)
        · exact Or.inr h
    · simp only [hx, if_false, List.mem_append, List.mem_singleton, List.mem_cons]
      tauto

theorem nodup_mergeHits_foldl (hitsOf : Nat → List Hit) (models : List Nat) :
    ∀ acc : List Hit, acc.Nodup →
      (models.foldl (fun results m => (hitsOf m).foldl appendUnique results) acc).Nodup := by
  induction models with
  | nil => intro acc h; exact h
  | cons m models ih =>
    intro acc h
    simp only [List.foldl_cons]
    exact ih _ (nodup_foldl_appendUnique _ _ h)

theorem mem_mergeHits_foldl (hitsOf : Nat → List Hit) (models : List Nat) :
    ∀ (acc : List Hit) (y : Hit),
      y ∈ models.foldl (fun results m => (hitsOf m).foldl appendUnique results) acc ↔
        y ∈ acc ∨ ∃ m ∈ models, y ∈ hitsOf m := by
  induction models with
  | nil => simp
  | cons m models ih =>
    intro acc y
    simp only [List.foldl_cons]
    rw [ih, mem_foldl_appendUnique]
    simp only [List.mem_cons]
    constructor
    · rintro ((h | h) | ⟨m', hm', h⟩)
      · exact Or.inl h
      · exact Or.inr ⟨m, Or.inl rfl, h⟩
      · exact Or.inr ⟨m', Or.inr hm', h⟩
    · rintro (h | ⟨m', hm' | hm', h⟩)
      · exact Or.inl (Or.inl h)
      · exact Or.inl (Or.inr (hm' ▸ h))
      · exact Or.inr ⟨m', hm', h⟩

/-! ### C1: deduplication of the merged working list -/

def hitA : Hit := ⟨1, [("title", [(0, 3)])]⟩

def hitB : Hit := ⟨1, [("body", [(5, 3)])]⟩

def regOne : AppRegistry := ⟨[0], fun a b => a == b, fun _ => true⟩

def envC1 : SearchEnv := ⟨regOne, 0, fun _ => [hitA, hitB], [], true, 0, none⟩

/-- C1 counterexample: the merge loop of `_do_search` deduplicates by whole-hit
equality (`if item not in results`), not by `id`: two hits that share `id = 1`
but differ in match metadata are both retained, so the merged working list
contains two hits with the same `id`, contradicting the claim. -/
theorem C1_counterexample :
    (mergedHits envC1).map Hit.id = [1, 1] ∧ ¬ ((mergedHits envC1).map Hit.id).Nodup := by
  constructor
  · rfl
  · decide

/-- C1 (amended): in the merged working list no two hits are equal as whole
hits — a hit all of whose fields (id and match metadata) coincide with an
earlier hit is skipped, the first occurrence wins — and nothing else is
dropped: a hit appears in the merged list exactly when some concrete type's
index returned it. Hits agreeing only on `id` are all retained. -/
theorem mergedHits_nodup (env : SearchEnv) :
    (mergedHits env).Nodup ∧
      ∀ h : Hit, h ∈ mergedHits env ↔
        ∃ m ∈ get_descendant_models env.registry env.model, h ∈ env.hitsOf m := by
  constructor
  · exact nodup_mergeHits_foldl _ _ [] List.nodup_nil
  · intro h
    rw [mergedHits, mergeHits, mem_mergeHits_foldl]
    simp

/-! ### C2: validation short-circuit of `_search` -/

/-- C2: `_search` returns the explicitly-empty result exactly when the model is
not registered for search or the query string is empty; in every other case it
returns the lazy results object over the compiled query. The empty outcome
carries neither query nor queryset, so no remote-index or datastore access can
follow from it. -/
theorem search_empty_iff (b : Backend) (query : String) (model : Nat) (obr : Bool) :
    (_search b query model obr = .empty ↔
        b.registry.class_is_indexed model = false ∨ query = "") ∧
      (b.registry.class_is_indexed model = true → query ≠ "" →
        _search b query model obr = .results query model obr) := by
  constructor
  · by_cases h1 : b.registry.class_is_indexed model
    · by_cases h2 : query = "" <;> simp [_search, h1, h2]
    · simp [_search, h1, Bool.eq_false_iff.mpr h1]
  · intro h1 h2
    simp [_search, h1, h2]

def backendW : Backend := ⟨regOne⟩

theorem C2_witness : _search backendW "hello" 0 true = .results "hello" 0 true :=
  (search_empty_iff backendW "hello" 0 true).2 rfl (by decide)

/-! ### C9: autocomplete is never supported -/

/-- C9: `MeiliSearchBackend` never sets an autocomplete query compiler, so
`autocomplete` raises `NotImplementedError` for every backend, query, model
and ordering flag, before any fan-out or result construction. -/
theorem autocomplete_always_not_implemented (b : Backend) (query : String)
    (model : Nat) (obr : Bool) :
    autocomplete b query model obr =
      .notImplementedError "This search backend does not support the autocomplete API" :=
  rfl

end WagtailMeili

namespace WagtailMeili

/-! ### Dict lemmas for the document builder -/

/-- The keys of a dict, in insertion order. -/
def dictKeys (d : List (String × PyVal)) : List String := d.map Prod.fst

theorem dictGet_dictInsert (d : List (String × PyVal)) (k : String) (v : PyVal) :
    dictGet (dictInsert d k v) k = some v := by
  induction d with
  | nil => simp [dictInsert, dictGet]
  | cons p rest ih =>
    by_cases h : p.1 = k
    · simp [dictInsert, dictGet, h]
    · simp [dictInsert, dictGet, h, ih]

theorem dictInsert_of_not_mem (d : List (String × PyVal)) (k : String) (v : PyVal)
    (h : k ∉ dictKeys d) : dictInsert d k v = d ++ [(k, v)] := by
  induction d with
  | nil => rfl
  | cons p rest ih =>
    simp only [dictKeys, List.map_cons, List.mem_cons] at h
    push_neg at h
    simp only [dictInsert, Ne.symm h.1, if_false, List.cons_append, List.cons.injEq, true_and]
    exact ih h.2

theorem mem_dictKeys_dictInsert (d : List (String × PyVal)) (k : String) (v : PyVal)
    (x : String) : x ∈ dictKeys (dictInsert d k v) ↔ x ∈ dictKeys d ∨ x = k := by
  induction d with
  | nil => simp [dictInsert, dictKeys]
  | cons p rest ih =>
    by_cases h : p.1 = k
    · simp only [dictInsert, h, if_true, dictKeys, List.map_cons, List.mem_cons]
      constructor
      · rintro (hx | hx)
        · exact Or.inr hx
        · exact Or.inl (Or.inr hx)
      · rintro ((hx | hx) | hx)
        · exact Or.inl (h ▸ hx)
        · exact Or.inr hx
        · exact Or.inl hx
    · simp only [dictInsert, h, if_false, dictKeys, List.map_cons, List.mem_cons]
      rw [show (List.map Prod.fst (dictInsert rest k v) : List String) =
            dictKeys (dictInsert rest k v) from rfl, ih]
      tauto

theorem nodupKeys_dictInsert (d : List (String × PyVal)) (k : String) (v : PyVal)
    (h : (dictKeys d).Nodup) : (dictKeys (dictInsert d k v)).Nodup := by
  induction d with
  | nil => simp [dictInsert, dictKeys]
  | cons p rest ih =>
    simp only [dictKeys, List.map_cons, List.nodup_cons] at h
    by_cases hk : p.1 = k
    · simpa [dictInsert, hk, dictKeys, List.nodup_cons, hk ▸ h.1] using h.2
    · simp only [dictInsert, hk, if_false, dictKeys, List.map_cons, List.nodup_cons]
      refine ⟨?_, ih h.2⟩
      rw [show (List.map Prod.fst (dictInsert rest k v) : List String) =
            dictKeys (dictInsert rest k v) from rfl, mem_dictKeys_dictInsert]
      rintro (hx | hx)
      · exact h.1 hx
      · exact hk hx

theorem dictUpdate_cons (d : List (String × PyVal)) (p : String × PyVal)
    (l : List (String × PyVal)) :
    dictUpdate d (p :: l) = dictUpdate (dictInsert d p.1 p.2) l := rfl

theorem dictUpdate_eq_append (l : List (String × PyVal)) :
    ∀ d, (∀ p ∈ l, p.1 ∉ dictKeys d) → (dictKeys l).Nodup → dictUpdate d l = d ++ l := by
  induction l with
  | nil => intro d _ _; simp [dictUpdate]
  | cons p l ih =>
    intro d hd hn
    simp only [dictKeys, List.map_cons, List.nodup_cons] at hn
    rw [dictUpdate_cons,
      dictInsert_of_not_mem d p.1 p.2 (hd p (List.mem_cons_self p l))]
    have step : ∀ q ∈ l, q.1 ∉ dictKeys (d ++ [(p.1, p.2)]) := by
      intro q hq
      simp only [dictKeys, List.map_append, List.mem_append, List.map_cons,
        List.map_nil, List.mem_singleton]
      rintro (hx | hx)
      · exact hd q (List.mem_cons_of_mem p hq) hx
      · exact hn.1 (hx ▸ List.mem_map_of_mem Prod.fst hq)
    rw [ih (d ++ [(p.1, p.2)]) step hn.2]
    simp

theorem nodupKeys_dictUpdate (l : List (String × PyVal)) :
    ∀ d, (dictKeys d).Nodup → (dictKeys (dictUpdate d l)).Nodup := by
  induction l with
  | nil => exact fun d h => h
  | cons p l ih =>
    intro d h
    rw [dictUpdate_cons]
    exact ih _ (nodupKeys_dictInsert _ _ _ h)

/-! ### C7: the document always carries `id = primary key`, set last -/

/-- C7: for every content object and every field schema — including schemas
that themselves emit a field whose mapped key is `id` — the built document
contains the key `id` with the object's primary key as its value: the
`doc_fields.update(id=item.id)` step runs last and overrides any same-named
entry emitted from the field descriptors. -/
theorem create_document_id (item : Item) (fields : List WagtailField) :
    dictGet (_create_document item fields) "id" = some (PyVal.vint item.id) := by
  unfold _create_document
  have h1 : (dictKeys (dictUpdate []
      ((_get_document_fields item fields).map (fun p => (p.1, PyVal.vstr p.2))))).Nodup :=
    nodupKeys_dictUpdate _ [] (by simp [dictKeys])
  have h2 : (dictKeys (dictInsert (dictUpdate []
      ((_get_document_fields item fields).map (fun p => (p.1, PyVal.vstr p.2))))
      "id" (PyVal.vint item.id))).Nodup :=
    nodupKeys_dictInsert _ _ _ h1
  show dictGet (dictUpdate [] (dictInsert (dictUpdate []
      ((_get_document_fields item fields).map (fun p => (p.1, PyVal.vstr p.2))))
      "id" (PyVal.vint item.id))) "id" = some (PyVal.vint item.id)
  rw [dictUpdate_eq_append _ [] (by simp [dictKeys]) h2, List.nil_append]
  exact dictGet_dictInsert _ _ _

/-! ### C8: derived index keys -/

/-- C8: the derived index key is the field name for search fields, the name
with `_filter` appended for filter fields, the name with `_ngrams` appended
for autocomplete fields; and a flattened related field emits, per declared
sub-field, the key obtained by joining the related field's name to the
sub-field's mapped key with `__` — whether the related value is a collection
or a single related object. -/
theorem field_mapping_spec (n : String) (subs : List WagtailField) :
    _get_field_mapping (.search n) = n ∧
    _get_field_mapping (.filter n) = n ++ "_filter" ∧
    _get_field_mapping (.autocomplete n) = n ++ "_ngrams" ∧
    (∀ (item : Item) (objs : List (List (String × PyVal))),
      getAttr item.attrs n = .vmanager objs →
      (_get_document_fields item [.related n subs]).map Prod.fst =
        subs.map (fun sf => n ++ "__" ++ _get_field_mapping sf)) ∧
    (∀ (item : Item) (attrs : List (String × PyVal)),
      getAttr item.attrs n = .vmodel attrs →
      (_get_document_fields item [.related n subs]).map Prod.fst =
        subs.map (fun sf => n ++ "__" ++ _get_field_mapping sf)) := by
  refine ⟨rfl, rfl, rfl, ?_, ?_⟩ <;>
    · intro item v h
      simp [_get_document_fields, WagtailField.field_name, h, Function.comp]

def itemW : Item := ⟨7, [("author", PyVal.vmanager [[("name", PyVal.vstr "bob")]])]⟩

theorem C8_witness :
    (_get_document_fields itemW [.related "author" [.search "name"]]).map Prod.fst =
      ["author" ++ "__" ++ _get_field_mapping (.search "name")] :=
  (field_mapping_spec "author" [.search "name"]).2.2.2.1 itemW
    [[("name", PyVal.vstr "bob")]] rfl

/-! ### C6: the fan-out set -/

def regC6 : AppRegistry :=
  ⟨[0, 1], fun a b => a == b || (a == 1 && b == 0), fun m => m == 0⟩

/-- C6 counterexample: `get_descendant_models` scans the whole app registry
and filters only by `issubclass`; it does not consult search registration.
In a registry where model 1 subclasses model 0 but is not registered for
search, model 1 is nevertheless part of the fan-out for model 0, contradicting
"no type outside the registered set is queried". -/
theorem C6_counterexample :
    1 ∈ get_descendant_models regC6 0 ∧ regC6.class_is_indexed 1 = false := by
  decide

/-- C6 (amended): the fan-out set for a requested model is exactly the models
of the process-wide registry that are structural subtypes of it — regardless
of search registration — and it contains the requested model itself whenever
the registry lists it (the subclass relation being reflexive). The resolution
is a pure function of the registry and the requested model, which is what the
`lru_cache` memoization per requested model relies on. -/
theorem get_descendant_models_spec (reg : AppRegistry) (model : Nat) :
    (∀ x, x ∈ get_descendant_models reg model ↔
        x ∈ reg.all_models ∧ reg.issubclass x model = true) ∧
      (reg.issubclass model model = true → model ∈ reg.all_models →
        model ∈ get_descendant_models reg model) := by
  constructor
  · intro x
    simp [get_descendant_models, List.mem_filter]
  · intro h1 h2
    simp [get_descendant_models, List.mem_filter, h1, h2]

theorem C6_witness : 0 ∈ get_descendant_models regC6 0 :=
  (get_descendant_models_spec regC6 0).2 (by decide) (by decide)

end WagtailMeili

namespace WagtailMeili

/-! ### C3: scoring and stable descending sort -/

/-- C3: in `_do_search`, every retained hit's score is the length of the
`str()` rendering of its `_matchesInfo`; the sorted list is a permutation of
the scored merged list, ordered by score descending; and the sort is stable:
two equal-score hits keep their first-seen merge order. -/
theorem score_sort_spec (env : SearchEnv) :
    (∀ sh ∈ scoreHits (mergedHits env), sh.score = (strMatchesInfo sh.matchesInfo).length) ∧
      (sortedResults env).Perm (scoreHits (mergedHits env)) ∧
      (sortedResults env).Pairwise (fun a b => b.score ≤ a.score) ∧
      ∀ a b : ScoredHit, a.score = b.score → ([a, b]).Sublist (scoreHits (mergedHits env)) →
        ([a, b]).Sublist (sortedResults env) := by
  refine ⟨?_, ?_, ?_, ?_⟩
  · intro sh hsh
    simp only [scoreHits, List.mem_map] at hsh
    obtain ⟨h, _, rfl⟩ := hsh
    rfl
  · exact List.perm_insertionSort scoreGE _
  · exact List.sorted_insertionSort scoreGE _
  · intro a b hsc hsub
    exact List.pair_sublist_insertionSort (Nat.le_of_eq hsc.symm) hsub

def hitC : Hit := ⟨1, [("t", [(0, 2)])]⟩

def hitD : Hit := ⟨2, [("b", [(0, 2)])]⟩

def envC3 : SearchEnv := ⟨regOne, 0, fun _ => [hitC, hitD], [], true, 0, none⟩

theorem C3_witness :
    ([⟨1, [("t", [(0, 2)])], (strMatchesInfo [("t", [(0, 2)])]).length⟩,
      ⟨2, [("b", [(0, 2)])], (strMatchesInfo [("b", [(0, 2)])]).length⟩] :
        List ScoredHit).Sublist (sortedResults envC3) :=
  (score_sort_spec envC3).2.2.2 _ _ (by decide) (by decide)

end WagtailMeili

namespace WagtailMeili

/-! ### C5: what `_do_count` counts -/

def hitP1 : Hit := ⟨1, [("title", [(0, 4)])]⟩

def hitP2 : Hit := ⟨2, [("body", [(2, 4)])]⟩

def envC5 : SearchEnv :=
  ⟨regOne, 0, fun _ => [hitP1, hitP2], [⟨1, 0⟩, ⟨2, 0⟩], true, 0, some 1⟩

/-- C5 counterexample: `_do_count` is `len(self._do_search())` and
`_do_search` ends with the `[self.start:self.stop]` slice, so the count is
taken after windowing, not before. With two materialized records and the
window `[0, 1)` the count is 1 while the full materialized sequence has
length 2, and widening the window changes the count to 2 — so the count is
not independent of the requested window, contradicting the claim. -/
theorem C5_counterexample :
    _do_count envC5 = 1 ∧ (materialized envC5).length = 2 ∧
      _do_count { envC5 with stop := none } = 2 := by
  refine ⟨by decide, by decide, by decide⟩

/-- C5 (amended): `_do_count` returns the length of the windowed materialized
sequence: it runs the full pipeline and counts what the result object's
current `[start, stop)` window retains — `min stop fullLength - start` for a
bounded window and `fullLength - start` for an unbounded one — rather than
the unwindowed length. -/
theorem count_spec (env : SearchEnv) :
    (env.stop = none → _do_count env = (materialized env).length - env.start) ∧
      ∀ n, env.stop = some n →
        _do_count env = min n (materialized env).length - env.start := by
  constructor
  · intro h
    simp [_do_count, _do_search, pySlice, h]
  · intro n h
    simp [_do_count, _do_search, pySlice, h, List.length_take]

theorem C5_witness :
    _do_count envC5 = min 1 (materialized envC5).length - envC5.start :=
  (count_spec envC5).2 1 rfl

end WagtailMeili

namespace WagtailMeili

/-! ### Helper lemmas for the materialization pipeline -/

theorem foldl_appendUnique_eq_append {α : Type} [DecidableEq α] (xs : List α) :
    ∀ acc : List α, ∃ ys : List α, xs.foldl appendUnique acc = acc ++ ys ∧ ys.Sublist xs := by
  induction xs with
  | nil => intro acc; exact ⟨[], by simp⟩
  | cons x xs ih =>
    intro acc
    simp only [List.foldl_cons]
    by_cases hx : x ∈ acc
    · obtain ⟨ys, h1, h2⟩ := ih acc
      refine ⟨ys, ?_, h2.cons x⟩
      simpa [appendUnique, hx] using h1
    · obtain ⟨ys, h1, h2⟩ := ih (acc ++ [x])
      refine ⟨x :: ys, ?_, h2.cons₂ x⟩
      simp only [appendUnique, hx, if_false]
      rw [h1, List.append_assoc, List.singleton_append]

theorem distinctRows_sublist (rows : List DbRec) : (distinctRows rows).Sublist rows := by
  obtain ⟨ys, h1, h2⟩ := foldl_appendUnique_eq_append rows []
  rw [distinctRows, h1, List.nil_append]
  exact h2

theorem mem_distinctRows (rows : List DbRec) (r : DbRec) :
    r ∈ distinctRows rows ↔ r ∈ rows := by
  rw [distinctRows, mem_foldl_appendUnique]
  simp

theorem pySlice_sublist {α : Type} (l : List α) (s : Nat) (t : Option Nat) :
    (pySlice l s t).Sublist l := by
  cases t with
  | none => exact List.drop_sublist s l
  | some n => exact (List.drop_sublist s (l.take n)).trans (List.take_sublist n l)

theorem firstIdx_lt_length {x : Int} : ∀ {l : List Int}, x ∈ l → firstIdx x l < l.length := by
  intro l
  induction l with
  | nil => intro h; cases h
  | cons y l ih =>
    intro h
    by_cases hy : y = x
    · simp [firstIdx, hy]
    · rcases List.mem_cons.mp h with rfl | hx
      · exact absurd rfl hy
      · simpa [firstIdx, hy] using Nat.succ_lt_succ (ih hx)

theorem getElem?_firstIdx {x : Int} : ∀ {l : List Int}, x ∈ l → l[firstIdx x l]? = some x := by
  intro l
  induction l with
  | nil => intro h; cases h
  | cons y l ih =>
    intro h
    by_cases hy : y = x
    · simp [firstIdx, hy]
    · rcases List.mem_cons.mp h with rfl | hx
      · exact absurd rfl hy
      · simp [firstIdx, hy, ih hx]

/-- In a list sorted (non-strictly) by a numeric key, an element with a
strictly smaller key precedes one with a strictly larger key, as a
two-element sublist. -/
theorem pair_sublist_of_sorted_key {α : Type} (key : α → Nat) {A B : α} :
    ∀ {l : List α}, l.Pairwise (fun a b => key a ≤ key b) →
      A ∈ l → B ∈ l → key A < key B → ([A, B]).Sublist l := by
  intro l
  induction l with
  | nil => intro _ hA _ _; cases hA
  | cons x rest ih =>
    intro hp hA hB hk
    rw [List.pairwise_cons] at hp
    rcases List.mem_cons.mp hA with rfl | hA2
    · rcases List.mem_cons.mp hB with h | hB2
      · subst h
        exact absurd hk (Nat.lt_irrefl _)
      · exact (List.singleton_sublist.mpr hB2).cons₂ _
    · rcases List.mem_cons.mp hB with rfl | hB2
      · exact absurd hk (Nat.not_lt.mpr (hp.1 A hA2))
      · exact (ih hp.2 hA2 hB2 hk).cons _

theorem materialized_eq (env : SearchEnv) :
    materialized env = distinctRows (if env.order_by_relevance
      then orderPreserved (sortedIds env)
        (env.db.filter (fun q => decide (q.pk ∈ sortedIds env)))
      else env.db.filter (fun q => decide (q.pk ∈ sortedIds env))) := rfl

theorem mem_db_of_mem_do_search (env : SearchEnv) :
    ∀ r ∈ _do_search env, r ∈ env.db ∧ r.pk ∈ sortedIds env := by
  intro r hr
  have h1 : r ∈ materialized env := (pySlice_sublist _ _ _).subset hr
  rw [materialized_eq, mem_distinctRows] at h1
  have h2 : r ∈ env.db.filter (fun q => decide (q.pk ∈ sortedIds env)) := by
    by_cases hob : env.order_by_relevance
    · rw [if_pos hob] at h1
      exact (List.mem_insertionSort _).mp h1
    · rw [if_neg hob] at h1
      exact h1
  rw [List.mem_filter] at h2
  exact ⟨h2.1, of_decide_eq_true h2.2⟩

theorem do_search_pairwise (env : SearchEnv) (hob : env.order_by_relevance = true) :
    (_do_search env).Pairwise
      (fun a b => firstIdx a.pk (sortedIds env) ≤ firstIdx b.pk (sortedIds env)) := by
  have h1 : (orderPreserved (sortedIds env)
      (env.db.filter (fun q => decide (q.pk ∈ sortedIds env)))).Pairwise
      (preservedLE (sortedIds env)) :=
    List.sorted_insertionSort (preservedLE (sortedIds env)) _
  have h2 : (materialized env).Pairwise (preservedLE (sortedIds env)) := by
    rw [materialized_eq, hob, if_pos rfl]
    exact List.Pairwise.sublist (distinctRows_sublist _) h1
  have h3 : (_do_search env).Pairwise (preservedLE (sortedIds env)) :=
    List.Pairwise.sublist (pySlice_sublist _ _ _) h2
  exact h3

/-- In the score-sorted hit list, if every hit carrying `pa` outscores every
hit carrying `pb`, the first occurrence of `pa` comes strictly before the
first occurrence of `pb`. -/
theorem firstIdx_lt_of_scores (sr : List ScoredHit) (hsorted : sr.Pairwise scoreGE)
    {pa pb : Int} (hA : pa ∈ sr.map ScoredHit.id) (hB : pb ∈ sr.map ScoredHit.id)
    (hip : ∀ ha ∈ sr, ha.id = pa → ∀ hb ∈ sr, hb.id = pb → hb.score < ha.score) :
    firstIdx pa (sr.map ScoredHit.id) < firstIdx pb (sr.map ScoredHit.id) := by
  have hiA : firstIdx pa (sr.map ScoredHit.id) < sr.length := by
    simpa using firstIdx_lt_length hA
  have hiB : firstIdx pb (sr.map ScoredHit.id) < sr.length := by
    simpa using firstIdx_lt_length hB
  obtain ⟨sa, hsa, hsaid⟩ :
      ∃ sa, sr[firstIdx pa (sr.map ScoredHit.id)]? = some sa ∧ sa.id = pa := by
    have h := getElem?_firstIdx hA
    rw [List.getElem?_map] at h
    obtain ⟨sa, h1, h2⟩ := Option.map_eq_some'.mp h
    exact ⟨sa, h1, h2⟩
  obtain ⟨sb, hsb, hsbid⟩ :
      ∃ sb, sr[firstIdx pb (sr.map ScoredHit.id)]? = some sb ∧ sb.id = pb := by
    have h := getElem?_firstIdx hB
    rw [List.getElem?_map] at h
    obtain ⟨sb, h1, h2⟩ := Option.map_eq_some'.mp h
    exact ⟨sb, h1, h2⟩
  have hma : sa ∈ sr := List.getElem?_mem hsa
  have hmb : sb ∈ sr := List.getElem?_mem hsb
  have hscore : sb.score < sa.score := hip sa hma hsaid sb hmb hsbid
  by_cases hlt : firstIdx pa (sr.map ScoredHit.id) < firstIdx pb (sr.map ScoredHit.id)
  · exact hlt
  · exfalso
    have hge : firstIdx pb (sr.map ScoredHit.id) ≤ firstIdx pa (sr.map ScoredHit.id) :=
      Nat.not_lt.mp hlt
    rcases Nat.lt_or_ge (firstIdx pb (sr.map ScoredHit.id))
        (firstIdx pa (sr.map ScoredHit.id)) with hlt2 | hge2
    · have hpw := List.pairwise_iff_getElem.mp hsorted _ _ hiB hiA hlt2
      rw [List.getElem?_eq_getElem hiB] at hsb
      rw [List.getElem?_eq_getElem hiA] at hsa
      have eb : sr[firstIdx pb (sr.map ScoredHit.id)] = sb := Option.some.inj hsb
      have ea : sr[firstIdx pa (sr.map ScoredHit.id)] = sa := Option.some.inj hsa
      rw [eb, ea] at hpw
      exact absurd hscore (Nat.not_lt.mpr hpw)
    · have heq : firstIdx pa (sr.map ScoredHit.id) = firstIdx pb (sr.map ScoredHit.id) :=
        Nat.le_antisymm hge2 hge
      rw [heq, List.getElem?_eq_getElem hiB] at hsa
      rw [List.getElem?_eq_getElem hiB] at hsb
      have hab : sa = sb := by
        rw [← Option.some.inj hsa, ← Option.some.inj hsb]
      rw [hab] at hscore
      exact Nat.lt_irrefl _ hscore

end WagtailMeili

namespace WagtailMeili

/-! ### C4: relevance ordering of the materialized output -/

/-- C4: when `order_by_relevance` is set, any two records of the final output
whose hits score strictly apart appear in descending-score order (the record
all of whose hits outscore the other's precedes it); every output record comes
from the canonical datastore, so an id known to the index but absent from the
datastore is simply absent from the output with no error; and when
`order_by_relevance` is not set the output is a subsequence of the datastore
rows in their default order. -/
theorem relevance_order_spec (env : SearchEnv) :
    (env.order_by_relevance = true →
      ∀ A B : DbRec, A ∈ _do_search env → B ∈ _do_search env →
        (∀ ha ∈ sortedResults env, ha.id = A.pk →
          ∀ hb ∈ sortedResults env, hb.id = B.pk → hb.score < ha.score) →
        ([A, B]).Sublist (_do_search env)) ∧
      (∀ r ∈ _do_search env, r ∈ env.db) ∧
      (env.order_by_relevance = false → (_do_search env).Sublist env.db) := by
  refine ⟨?_, ?_, ?_⟩
  · intro hob A B hA hB hip
    have hsorted : (sortedResults env).Pairwise scoreGE :=
      List.sorted_insertionSort scoreGE _
    have hA2 : A.pk ∈ (sortedResults env).map ScoredHit.id :=
      (mem_db_of_mem_do_search env A hA).2
    have hB2 : B.pk ∈ (sortedResults env).map ScoredHit.id :=
      (mem_db_of_mem_do_search env B hB).2
    have hkey : firstIdx A.pk (sortedIds env) < firstIdx B.pk (sortedIds env) :=
      firstIdx_lt_of_scores (sortedResults env) hsorted hA2 hB2 hip
    exact pair_sublist_of_sorted_key (fun q => firstIdx q.pk (sortedIds env))
      (do_search_pairwise env hob) hA hB hkey
  · intro r hr
    exact (mem_db_of_mem_do_search env r hr).1
  · intro hob
    have h1 : (materialized env).Sublist
        (env.db.filter (fun q => decide (q.pk ∈ sortedIds env))) := by
      rw [materialized_eq, hob]
      simp only [Bool.false_eq_true, if_false]
      exact distinctRows_sublist _
    exact ((pySlice_sublist _ _ _).trans h1).trans (List.filter_sublist _)

def hitE : Hit := ⟨1, [("title", [(0, 6)]), ("body", [(1, 2)])]⟩

def hitF : Hit := ⟨2, [("t", [(0, 1)])]⟩

def envC4 : SearchEnv := ⟨regOne, 0, fun _ => [hitF, hitE], [⟨2, 0⟩, ⟨1, 0⟩], true, 0, none⟩

theorem C4_witness :
    ([⟨1, 0⟩, ⟨2, 0⟩] : List DbRec).Sublist (_do_search envC4) :=
  (relevance_order_spec envC4).1 rfl ⟨1, 0⟩ ⟨2, 0⟩ (by decide) (by decide) (by decide)

/-! ### C10: two-run determinism of the pipeline -/

/-- C10: `_do_search` after the fan-out is a pure function of what it reads —
two runs over the same registry and requested model, in which each concrete
type's index returns identical hit lists and the canonical datastore holds
identical rows, with the same ordering flag and window, produce identical
output sequences and identical counts. -/
theorem do_search_deterministic (e1 e2 : SearchEnv)
    (hreg : e1.registry = e2.registry) (hmodel : e1.model = e2.model)
    (hhits : ∀ m, e1.hitsOf m = e2.hitsOf m) (hdb : e1.db = e2.db)
    (hobr : e1.order_by_relevance = e2.order_by_relevance)
    (hstart : e1.start = e2.start) (hstop : e1.stop = e2.stop) :
    _do_search e1 = _do_search e2 ∧ _do_count e1 = _do_count e2 := by
  have hfun : e1.hitsOf = e2.hitsOf := funext hhits
  have he : e1 = e2 := by
    cases e1
    cases e2
    simp only at hreg hmodel hfun hdb hobr hstart hstop
    subst hreg
    subst hmodel
    subst hfun
    subst hdb
    subst hobr
    subst hstart
    subst hstop
    rfl
  rw [he]
  exact ⟨rfl, rfl⟩

def envC10 : SearchEnv := ⟨regOne, 0, fun _ => [hitA], [⟨1, 0⟩], true, 0, none⟩

theorem C10_witness :
    _do_search envC10 = _do_search envC10 ∧ _do_count envC10 = _do_count envC10 :=
  do_search_deterministic envC10 envC10 rfl rfl (fun _ => rfl) rfl rfl rfl rfl

end WagtailMeili
